import Mathlib

/-!
Shallow embedding of the linear stability analysis pipeline of
`LinearStabilityAnalysis/LinearStabilityAnalysis.ipynb`.

The notebook discretises a second-order boundary value problem for
symmetric instability, solves a (generalised) eigenvalue problem at each
vertical wavelength, and post-processes the complex eigenvalues into
growth rates, most-unstable wavelengths and normalised eigenfunctions.

All definitions below are translated from the source cells of the notebook.
Machine floats are modelled by real numbers; the non-raising NumPy special
values (NaN, ±inf) are modelled explicitly by the `FVal` type where the
code can hit a division by zero, and missing/masked values (xarray
`where` masks, NaN-skipping reductions) by `Option ℝ`.
-/

namespace LSA

noncomputable section

/-- Physical configuration constants of the notebook
(`f`, `V_0`, `x_mid`, `delta_b`, `N2` in the parameters cell). -/
structure Config where
  f : ℝ
  V0 : ℝ
  x_mid : ℝ
  delta_b : ℝ
  N2 : ℝ

/-- The concrete constant values set in the parameters cell of the notebook. -/
def nbConfig : Config :=
  { f := 1.01e-5, V0 := 0.87, x_mid := 40e3, delta_b := 30e3, N2 := 2.5e-5 }

/-- Source: `rel_vort = - 2 * V_0 / delta_b * np.tanh((x - x_mid) / delta_b)
/ np.square(np.cosh((x - x_mid) / delta_b))` inside `zeta`. -/
def rel_vort (c : Config) (x : ℝ) : ℝ :=
  -2 * c.V0 / c.delta_b * Real.tanh ((x - c.x_mid) / c.delta_b) /
    Real.cosh ((x - c.x_mid) / c.delta_b) ^ 2

/-- Source: `def zeta(x): ... return rel_vort + f` — the absolute vorticity
at position `x`.  Total on all of ℝ: no special-casing anywhere. -/
def zeta (c : Config) (x : ℝ) : ℝ := rel_vort c x + c.f

/-- Source: `x = np.arange(0, nx * dx, dx)`, i.e. `x[i] = i * dx`. -/
def x_coord (dx : ℝ) (i : ℕ) : ℝ := i * dx

/-- Source: `diagonals = np.array([1, -2, 1]) / np.square(dx)` and
`d2_dx2 = sps.diags(diagonals, offsets=[-1, 0, 1], shape=(nx, nx))`:
the tridiagonal curvature operator, entry `(i, j)` equal to `-2/dx²`
on the main diagonal, `1/dx²` on the sub- and super-diagonal (offsets
`-1` and `+1`), and `0` elsewhere; the boundary rows are simply
truncated.  It depends on no physical parameter, only `nx` and `dx`. -/
def d2_dx2 (nx : ℕ) (dx : ℝ) : Matrix (Fin nx) (Fin nx) ℝ :=
  Matrix.of fun i j =>
    if (i : ℕ) = (j : ℕ) then -2 / dx ^ 2
    else if (i : ℕ) + 1 = (j : ℕ) ∨ (j : ℕ) + 1 = (i : ℕ) then 1 / dx ^ 2
    else 0

/-- Source: `f_zeta = sps.dia_matrix(f_zeta_arr * np.identity(nx))` with
`f_zeta_arr = f * zeta(x)` — the diagonal matrix of `f·ζ(x_i)`. -/
def f_zeta (c : Config) (nx : ℕ) (dx : ℝ) : Matrix (Fin nx) (Fin nx) ℝ :=
  Matrix.diagonal fun i => c.f * zeta c (x_coord dx (i : ℕ))

/-- Source: `m = 2 * np.pi / lambda_val` inside `calculate_eigenvalue`. -/
def calculate_m (lambda_val : ℝ) : ℝ := 2 * Real.pi / lambda_val

/-- Source: `eigen_operator = -N2 / m2 * d2_dx2 + f_zeta` inside
`calculate_eigenvalue`, with `m2 = np.square(m)`. -/
def eigen_operator (c : Config) (nx : ℕ) (dx lambda_val : ℝ) :
    Matrix (Fin nx) (Fin nx) ℝ :=
  (-c.N2 / calculate_m lambda_val ^ 2) • d2_dx2 nx dx + f_zeta c nx dx

/-- Error kinds named by the error-handling design of the specification.
They are declared here so that statements about the presence or absence
of error paths in the code can be expressed. -/
inductive StabilityError where
  | InvalidConfiguration : StabilityError
  | SolverDidNotConverge : StabilityError

/-- The operator-assembly part of `calculate_eigenvalue`, viewed as a
fallible computation.  The source performs no validation whatsoever on
`lambda_val` or on `m` before assembling the operator (it goes straight
from `m = 2 * np.pi / lambda_val` to `eigen_operator = ...`), so the
embedding has no error path and always returns `Except.ok`. -/
def assemble_operator (c : Config) (nx : ℕ) (dx lambda_val : ℝ) :
    Except StabilityError (Matrix (Fin nx) (Fin nx) ℝ) :=
  Except.ok (eigen_operator c nx dx lambda_val)

/-- Warning kinds named by the specification. -/
inductive RunWarning where
  | PrecisionWarning : RunWarning

/-- Source: `psi_arr = psi_arr.squeeze().real` — after the sweep the
driver keeps only the real part of every eigenfunction entry,
unconditionally.  There is no tolerance check and no warning mechanism
in the source, so the warning component is always empty. -/
def psi_real (psi : List ℂ) : List ℝ × List RunWarning :=
  (psi.map Complex.re, [])

/-- Principal-branch complex square root, the semantics of
`np.lib.scimath.sqrt` (and `np.sqrt` on complex input): for
`z = a + i·b`, the root with nonnegative real part, on the branch cut
(negative real axis, `b = 0`) the root `+i·sqrt(-a)` with nonnegative
imaginary part.  Written with the standard half-angle formula. -/
def csqrt (z : ℂ) : ℂ :=
  Complex.mk (Real.sqrt ((Complex.abs z + z.re) / 2))
    (if z.im < 0 then -Real.sqrt ((Complex.abs z - z.re) / 2)
     else Real.sqrt ((Complex.abs z - z.re) / 2))

/-- Source: `ds[omega_hat] = ... np.lib.scimath.sqrt(ds[eigen_value])`. -/
def omega_hat (ev : ℂ) : ℂ := csqrt ev

/-- Source: `ds[omega] = ds[omega_hat] - 1j * ds[viscosity] * ds[m2]`
at one point `(viscosity Ar, wavelength with m² = m2)`. -/
def omega (ev : ℂ) (Ar m2 : ℝ) : ℂ :=
  omega_hat ev - Complex.I * (Ar : ℂ) * (m2 : ℂ)

/-- Source: `ds[sigma] = ds[omega].where(ds[omega].imag >= 0).imag`.
xarray `where` masks (to NaN) every point where `Im ω < 0`; the mask is
modelled by `Option`: the value is present exactly when `Im ω ≥ 0`. -/
def sigma (ev : ℂ) (Ar m2 : ℝ) : Option ℝ :=
  if 0 ≤ (omega ev Ar m2).im then some (omega ev Ar m2).im else none

/-- Source: `ds[sigma_normalised] = ds[sigma] / f` (NaN propagates). -/
def sigma_normalised (fc : ℝ) (ev : ℂ) (Ar m2 : ℝ) : Option ℝ :=
  (sigma ev Ar m2).map fun s => s / fc

/-- NaN-skipping binary max on masked values, the reduction step of
xarray `.max(lambda)` with its default `skipna=True`. -/
def omax : Option ℝ → Option ℝ → Option ℝ
  | none, acc => acc
  | some v, none => some v
  | some v, some w => some (max v w)

/-- Source: `ds[sigma_unstable] = ds[sigma].max(lambda)` on one
viscosity row: the NaN-skipping maximum, `none` when every entry of the
row is masked. -/
def sigma_unstable (row : List (Option ℝ)) : Option ℝ :=
  row.foldr omax none

/-- NaN-skipping argmax over `(lambda, sigma)` pairs, the semantics of
xarray `idxmax(dim=lambda)`: returns the `(lambda, sigma)` pair of the
first maximal unmasked `sigma` (ties broken by the earliest wavelength),
`none` when every entry is masked. -/
def argmax_pairs : List (ℝ × Option ℝ) → Option (ℝ × ℝ)
  | [] => none
  | (_, none) :: t => argmax_pairs t
  | (l, some v) :: t =>
    match argmax_pairs t with
    | none => some (l, v)
    | some (lb, vb) => if vb > v then some (lb, vb) else some (l, v)

/-- Source: `ds[lambda_unstable] = ds[sigma].idxmax(dim=lambda)`
on one viscosity row. -/
def lambda_unstable (lambdas : List ℝ) (row : List (Option ℝ)) : Option ℝ :=
  (argmax_pairs (lambdas.zip row)).map Prod.fst

/-- IEEE-style value lattice for the places where the notebook can divide
by zero without raising: a finite real, `+inf`, `-inf`, or NaN. -/
inductive FVal where
  | fin : ℝ → FVal
  | pinf : FVal
  | ninf : FVal
  | nan : FVal

/-- NumPy float division: `a / 0` is NaN when `a = 0`, `+inf` when
`a > 0`, `-inf` when `a < 0` (a RuntimeWarning, never an exception);
ordinary real division otherwise. -/
def fdiv (a b : ℝ) : FVal :=
  if b = 0 then
    (if a = 0 then FVal.nan else if 0 < a then FVal.pinf else FVal.ninf)
  else FVal.fin (a / b)

/-- Source: `ds[time_scale_days] = 1 / (ds[sigma_unstable] * 24 * 60 * 60)`
for one viscosity row; a masked `sigma_unstable` (NaN) propagates to NaN. -/
def time_scale_days (s : Option ℝ) : FVal :=
  match s with
  | none => FVal.nan
  | some v => fdiv 1 (v * (24 * 60 * 60))

/-- NumPy `np.sign` on reals: `1`, `-1` or `0`. -/
def npSign (r : ℝ) : ℝ := if 0 < r then 1 else if r < 0 then -1 else 0

/-- Source: `ds[psi_sign_corrected] = np.sign(ds[psi_unnormalised].sel(
lon: x_vorticity_minima, method=nearest)) * ds[psi_unnormalised]`
for one wavelength row `p`, with `ref` the grid index nearest to the
vorticity minimum. -/
def psi_sign_corrected (p : ℕ → ℝ) (ref : ℕ) (x : ℕ) : ℝ :=
  npSign (p ref) * p x

/-- Source: `ds[psi_norm_area] = ds[psi_sign_corrected] /
ds[psi_sign_corrected].sum(lon)` for one wavelength row, with NumPy
division semantics at a zero denominator. -/
def psi_norm_area (p : List ℝ) : List FVal :=
  p.map fun a => fdiv a p.sum

/-- Claim C2: the absolute vorticity profile is exactly
`f - 2·V0/δ · tanh((x - x_mid)/δ) / cosh²((x - x_mid)/δ)` for every real
input, in particular at the domain boundaries `x = 0` and `x = Lx`, with
no error path and no special-casing anywhere. -/
theorem zeta_spec_formula (c : Config) (x : ℝ) :
    zeta c x =
      c.f - 2 * c.V0 / c.delta_b * Real.tanh ((x - c.x_mid) / c.delta_b) /
        Real.cosh ((x - c.x_mid) / c.delta_b) ^ 2 := by
  unfold zeta rel_vort
  ring

/-- The imaginary part of `omega` is the imaginary part of `omega_hat`
minus the viscous term `Ar·m²`. -/
theorem omega_im (ev : ℂ) (Ar m2 : ℝ) :
    (omega ev Ar m2).im = (omega_hat ev).im - Ar * m2 := by
  simp [omega]

/-- On a non-positive real input the principal square root has zero real
part. -/
theorem csqrt_re_ofReal_nonpos (a : ℝ) (ha : a ≤ 0) :
    (csqrt (a : ℂ)).re = 0 := by
  have habs : Complex.abs (a : ℂ) = -a := by
    rw [Complex.abs_ofReal, abs_of_nonpos ha]
  show Real.sqrt ((Complex.abs (a : ℂ) + (a : ℂ).re) / 2) = 0
  rw [habs, Complex.ofReal_re]
  rw [show (-a + a) / 2 = 0 by ring, Real.sqrt_zero]

/-- On a non-positive real input the principal square root has imaginary
part `sqrt (-a)`. -/
theorem csqrt_im_ofReal_nonpos (a : ℝ) (ha : a ≤ 0) :
    (csqrt (a : ℂ)).im = Real.sqrt (-a) := by
  have habs : Complex.abs (a : ℂ) = -a := by
    rw [Complex.abs_ofReal, abs_of_nonpos ha]
  show (if (a : ℂ).im < 0 then -Real.sqrt ((Complex.abs (a : ℂ) - (a : ℂ).re) / 2)
      else Real.sqrt ((Complex.abs (a : ℂ) - (a : ℂ).re) / 2)) = Real.sqrt (-a)
  rw [Complex.ofReal_im, Complex.ofReal_re, habs, if_neg (lt_irrefl (0 : ℝ))]
  rw [show (-a - a) / 2 = -a by ring]

/-- The embedded principal square root really is a square root:
squaring it recovers the argument, certifying the half-angle formula
used in `csqrt`. -/
theorem csqrt_mul_self (z : ℂ) : csqrt z * csqrt z = z := by
  have hra := Complex.abs_re_le_abs z
  have hle := abs_le.mp hra
  have h1 : 0 ≤ (Complex.abs z + z.re) / 2 := by linarith [hle.1]
  have h2 : 0 ≤ (Complex.abs z - z.re) / 2 := by linarith [hle.2]
  have hb2 : (Complex.abs z) ^ 2 - z.re ^ 2 = z.im ^ 2 := by
    rw [Complex.sq_abs, Complex.normSq_apply]
    ring
  have hprod : Real.sqrt ((Complex.abs z + z.re) / 2) *
      Real.sqrt ((Complex.abs z - z.re) / 2) = |z.im| / 2 := by
    rw [← Real.sqrt_mul h1]
    rw [show (Complex.abs z + z.re) / 2 * ((Complex.abs z - z.re) / 2)
        = ((Complex.abs z) ^ 2 - z.re ^ 2) / 4 by ring]
    rw [hb2]
    rw [show z.im ^ 2 / 4 = (|z.im| / 2) ^ 2 by rw [div_pow, sq_abs]; norm_num]
    exact Real.sqrt_sq (by positivity)
  have hre2 : Real.sqrt ((Complex.abs z + z.re) / 2) *
      Real.sqrt ((Complex.abs z + z.re) / 2) = (Complex.abs z + z.re) / 2 :=
    Real.mul_self_sqrt h1
  have him2 : Real.sqrt ((Complex.abs z - z.re) / 2) *
      Real.sqrt ((Complex.abs z - z.re) / 2) = (Complex.abs z - z.re) / 2 :=
    Real.mul_self_sqrt h2
  have hcre : (csqrt z).re = Real.sqrt ((Complex.abs z + z.re) / 2) := rfl
  have hcim : (csqrt z).im =
      (if z.im < 0 then -Real.sqrt ((Complex.abs z - z.re) / 2)
       else Real.sqrt ((Complex.abs z - z.re) / 2)) := rfl
  apply Complex.ext
  · rw [Complex.mul_re, hcre, hcim]
    by_cases hb : z.im < 0
    · rw [if_pos hb, neg_mul_neg, hre2, him2]
      ring
    · rw [if_neg hb, hre2, him2]
      ring
  · rw [Complex.mul_im, hcre, hcim]
    by_cases hb : z.im < 0
    · rw [if_pos hb]
      have habs : |z.im| = -z.im := abs_of_neg hb
      linear_combination -2 * hprod - habs
    · rw [if_neg hb]
      have habs : |z.im| = z.im := abs_of_nonneg (not_lt.mp hb)
      linear_combination 2 * hprod + habs

/-- The embedded principal square root lies in the right half plane,
the principal-branch sign convention of `np.lib.scimath.sqrt`. -/
theorem csqrt_re_nonneg (z : ℂ) : 0 ≤ (csqrt z).re :=
  Real.sqrt_nonneg _

/-- Claim C1: for every pair `(A_r, λ)` the growth rate is
`σ = Im ω` with `ω = csqrt(eigenvalue) - i·A_r·m²`, defined (unmasked)
exactly when `Im ω ≥ 0` and masked otherwise, and
`σ_normalised = σ / f`. -/
theorem C1_growth_rate_definition (fc Ar m2 : ℝ) (ev : ℂ) :
    (omega ev Ar m2).im = (omega_hat ev).im - Ar * m2
    ∧ sigma ev Ar m2 =
        (if 0 ≤ (omega_hat ev).im - Ar * m2
         then some ((omega_hat ev).im - Ar * m2) else none)
    ∧ (sigma ev Ar m2 = none ↔ (omega ev Ar m2).im < 0)
    ∧ sigma_normalised fc ev Ar m2 = (sigma ev Ar m2).map (fun s => s / fc) := by
  refine ⟨omega_im ev Ar m2, ?_, ?_, rfl⟩
  · unfold sigma
    rw [omega_im ev Ar m2]
  · unfold sigma
    by_cases h : 0 ≤ (omega ev Ar m2).im
    · rw [if_pos h]
      simp [not_lt.mpr h]
    · rw [if_neg h]
      simp [lt_of_not_ge h]

/-- Claim C7: at viscosity `0` the viscous term vanishes identically,
so the growth rate is `Im (csqrt eigenvalue)` at every point where that
value is positive. -/
theorem C7_zero_viscosity (ev : ℂ) (m2 : ℝ) (h : 0 < (omega_hat ev).im) :
    omega ev 0 m2 = omega_hat ev ∧ sigma ev 0 m2 = some ((omega_hat ev).im) := by
  have hom : omega ev 0 m2 = omega_hat ev := by
    simp [omega]
  refine ⟨hom, ?_⟩
  unfold sigma
  rw [hom, if_pos h.le]

/-- Witness for C7 at the concrete eigenvalue `-1` (where
`csqrt (-1) = i`, so `Im = 1 > 0`) and `m2 = 5`. -/
theorem C7_zero_viscosity_witness :
    0 < (omega_hat ((-1 : ℝ) : ℂ)).im ∧
      sigma ((-1 : ℝ) : ℂ) 0 5 = some ((omega_hat ((-1 : ℝ) : ℂ)).im) := by
  have him : (omega_hat ((-1 : ℝ) : ℂ)).im = 1 := by
    have h := csqrt_im_ofReal_nonpos (-1) (by norm_num)
    rw [show -(-1 : ℝ) = 1 by norm_num, Real.sqrt_one] at h
    exact h
  have h : 0 < (omega_hat ((-1 : ℝ) : ℂ)).im := by rw [him]; norm_num
  exact ⟨h, (C7_zero_viscosity ((-1 : ℝ) : ℂ) 5 h).2⟩

/-- Claim C9: for a non-positive real eigenvalue `a` the principal
square root is purely imaginary with nonnegative imaginary part
`sqrt (-a)`, so at viscosity `0` the point is never masked and the
growth rate equals `sqrt (-a)` exactly. -/
theorem C9_principal_sqrt_nonpos_real (a m2 : ℝ) (ha : a ≤ 0) :
    (omega_hat (a : ℂ)).re = 0
    ∧ (omega_hat (a : ℂ)).im = Real.sqrt (-a)
    ∧ 0 ≤ (omega_hat (a : ℂ)).im
    ∧ sigma (a : ℂ) 0 m2 = some (Real.sqrt (-a)) := by
  have hre : (omega_hat (a : ℂ)).re = 0 := csqrt_re_ofReal_nonpos a ha
  have him : (omega_hat (a : ℂ)).im = Real.sqrt (-a) := csqrt_im_ofReal_nonpos a ha
  refine ⟨hre, him, ?_, ?_⟩
  · rw [him]
    exact Real.sqrt_nonneg _
  · have hom : omega (a : ℂ) 0 m2 = omega_hat (a : ℂ) := by
      simp [omega]
    unfold sigma
    rw [hom, him, if_pos (Real.sqrt_nonneg _)]

/-- Witness for C9 at the concrete eigenvalue `-4`. -/
theorem C9_principal_sqrt_nonpos_real_witness :
    ((-4 : ℝ) ≤ 0) ∧ sigma (((-4 : ℝ)) : ℂ) 0 1 = some (Real.sqrt (-(-4 : ℝ))) :=
  ⟨by norm_num, (C9_principal_sqrt_nonpos_real (-4) 1 (by norm_num)).2.2.2⟩

/-- Claim C3: for every grid with `nx ≥ 3` the curvature operator is the
symmetric matrix with constant diagonals `[1, -2, 1] / dx²` on offsets
`-1, 0, +1` and zeros elsewhere (boundary rows truncated); its entries
depend on no parameter other than `nx` and `dx`, as its type shows. -/
theorem C3_curvature_operator (nx : ℕ) (dx : ℝ) (_h3 : 3 ≤ nx) :
    (d2_dx2 nx dx).transpose = d2_dx2 nx dx ∧
      ∀ i j : Fin nx, d2_dx2 nx dx i j =
        (if (i : ℤ) = (j : ℤ) then -2 / dx ^ 2
         else if (j : ℤ) = (i : ℤ) - 1 ∨ (j : ℤ) = (i : ℤ) + 1 then 1 / dx ^ 2
         else 0) := by
  constructor
  · ext i j
    simp only [Matrix.transpose_apply, d2_dx2, Matrix.of_apply]
    split_ifs <;> first | rfl | (exfalso; omega)
  · intro i j
    simp only [d2_dx2, Matrix.of_apply]
    split_ifs <;> first | rfl | (exfalso; omega)

/-- Witness for C3 on the concrete grid `nx = 3`, `dx = 1`. -/
theorem C3_curvature_operator_witness :
    (3 : ℕ) ≤ 3 ∧ (d2_dx2 3 1).transpose = d2_dx2 3 1 :=
  ⟨by norm_num, (C3_curvature_operator 3 1 (by norm_num)).1⟩

/-- Unfolding step of the NaN-skipping row maximum. -/
theorem sigma_unstable_cons (o : Option ℝ) (t : List (Option ℝ)) :
    sigma_unstable (o :: t) = omax o (sigma_unstable t) := rfl

/-- A fully masked row has a masked maximum. -/
theorem sigma_unstable_all_none (row : List (Option ℝ))
    (h : ∀ o ∈ row, o = none) : sigma_unstable row = none := by
  induction row with
  | nil => rfl
  | cons o t ih =>
    have ho : o = none := h o (List.mem_cons_self o t)
    have ht : sigma_unstable t = none :=
      ih fun o hmem => h o (List.mem_cons_of_mem _ hmem)
    rw [sigma_unstable_cons, ho, ht]
    rfl

/-- The row maximum, when present, is one of the entries of the row. -/
theorem sigma_unstable_mem (row : List (Option ℝ)) (v : ℝ)
    (h : sigma_unstable row = some v) : some v ∈ row := by
  induction row with
  | nil => exact Option.noConfusion h
  | cons o t ih =>
    rw [sigma_unstable_cons] at h
    cases o with
    | none =>
      exact List.mem_cons_of_mem _ (ih h)
    | some a =>
      cases hst : sigma_unstable t with
      | none =>
        rw [hst] at h
        have hav : a = v := by simpa [omax] using h
        rw [← hav]
        exact List.mem_cons_self _ _
      | some w =>
        rw [hst] at h
        have hmv : max a w = v := by simpa [omax] using h
        rcases max_choice a w with hmax | hmax
        · rw [← hmv, hmax]
          exact List.mem_cons_self _ _
        · refine List.mem_cons_of_mem _ (ih ?_)
          rw [hst, ← hmv, hmax]

/-- A fully masked row has a masked argmax. -/
theorem argmax_pairs_all_none (ls : List ℝ) (row : List (Option ℝ))
    (h : ∀ o ∈ row, o = none) : argmax_pairs (ls.zip row) = none := by
  induction ls generalizing row with
  | nil => rfl
  | cons l ls ih =>
    cases row with
    | nil => rfl
    | cons o t =>
      have ho : o = none := h o (List.mem_cons_self o t)
      subst ho
      show argmax_pairs ((l, none) :: ls.zip t) = none
      exact ih t fun o hmem => h o (List.mem_cons_of_mem _ hmem)

/-- Claim C4: on a viscosity row of the growth-rate field (whose
unmasked entries are nonnegative by construction), a fully masked row
yields masked `λ*`, `σ*` and NaN `timescale` without any error; the
timescale `1 / (σ*·86400)` is NaN when `σ*` is masked and `+inf` when
`σ* ≤ 0` (which forces `σ* = 0`), never an exception. -/
theorem C4_all_masked_row (lambdas : List ℝ) (row : List (Option ℝ))
    (hnn : ∀ v : ℝ, some v ∈ row → 0 ≤ v) :
    ((∀ o ∈ row, o = none) →
        sigma_unstable row = none ∧ lambda_unstable lambdas row = none ∧
          time_scale_days (sigma_unstable row) = FVal.nan)
    ∧ (sigma_unstable row = none →
        time_scale_days (sigma_unstable row) = FVal.nan)
    ∧ (∀ v : ℝ, sigma_unstable row = some v → v ≤ 0 →
        time_scale_days (sigma_unstable row) = FVal.pinf) := by
  refine ⟨?_, ?_, ?_⟩
  · intro h
    have hs := sigma_unstable_all_none row h
    refine ⟨hs, ?_, ?_⟩
    · unfold lambda_unstable
      rw [argmax_pairs_all_none lambdas row h]
      rfl
    · rw [hs]
      rfl
  · intro hs
    rw [hs]
    rfl
  · intro v hv hle
    have h0 : 0 ≤ v := hnn v (sigma_unstable_mem row v hv)
    have hv0 : v = 0 := le_antisymm hle h0
    rw [hv, hv0]
    show fdiv 1 (0 * (24 * 60 * 60)) = FVal.pinf
    rw [zero_mul]
    unfold fdiv
    norm_num

/-- Witness for C4 on the concrete fully masked row `[none, none]`. -/
theorem C4_all_masked_row_witness :
    sigma_unstable [none, none] = none ∧
      lambda_unstable [1, 2] [none, none] = none ∧
      time_scale_days (sigma_unstable [none, none]) = FVal.nan := by
  have hnn : ∀ v : ℝ, some v ∈ ([none, none] : List (Option ℝ)) → 0 ≤ v := by
    intro v hv
    simp at hv
  have hall : ∀ o ∈ ([none, none] : List (Option ℝ)), o = none := by
    intro o ho
    simpa using ho
  exact (C4_all_masked_row [1, 2] [none, none] hnn).1 hall

/-- Counterexample to claim C5: the source function `calculate_eigenvalue`
performs no validation at all.  At the wavelength `0` — where the
embedded `m = 2π/λ` is `0` and the claim demands an eager
`InvalidConfiguration` failure — assembly succeeds and returns an
operator rather than an error. -/
theorem C5_counterexample :
    calculate_m 0 = 0 ∧
      assemble_operator nbConfig 4 1 0 ≠
        Except.error StabilityError.InvalidConfiguration := by
  constructor
  · unfold calculate_m
    exact div_zero _
  · intro h
    simp [assemble_operator] at h

/-- Amended claim C5: operator assembly performs no validation and never
raises `InvalidConfiguration`; for every wavelength it unconditionally
returns the assembled operator, and for every strictly positive
wavelength the derived vertical wavenumber `m = 2π/λ` is nonzero, so the
division `-N2/m²` is well-defined there. -/
theorem C5_no_validation (c : Config) (nx : ℕ) (dx lambda_val : ℝ) :
    assemble_operator c nx dx lambda_val =
        Except.ok (eigen_operator c nx dx lambda_val)
    ∧ (0 < lambda_val → calculate_m lambda_val ≠ 0) := by
  refine ⟨rfl, ?_⟩
  intro h
  unfold calculate_m
  have hpos : 0 < 2 * Real.pi / lambda_val := by positivity
  exact ne_of_gt hpos

/-- Witness for the amended C5 at the concrete wavelength `1`. -/
theorem C5_no_validation_witness :
    assemble_operator nbConfig 4 1 1 = Except.ok (eigen_operator nbConfig 4 1 1)
    ∧ calculate_m 1 ≠ 0 :=
  ⟨(C5_no_validation nbConfig 4 1 1).1,
    (C5_no_validation nbConfig 4 1 1).2 (by norm_num)⟩

/-- Summing a list divided pointwise by a constant gives the sum divided
by that constant. -/
theorem list_sum_map_div (p : List ℝ) (s : ℝ) :
    (p.map fun a => a / s).sum = p.sum / s := by
  induction p with
  | nil => simp
  | cons a t ih => simp [ih, add_div]

/-- Counterexample to claim C6: on the row `[1, -1]` the sign-corrected
eigenfunction sums to exactly zero, and the area normalisation produces
`+inf` and `-inf` (the NumPy `x / 0` for `x ≠ 0`), not not-a-number. -/
theorem C6_counterexample :
    ([(1 : ℝ), -1]).sum = 0 ∧
      psi_norm_area [(1 : ℝ), -1] = [FVal.pinf, FVal.ninf] ∧
      FVal.pinf ≠ FVal.nan := by
  have hs : ([(1 : ℝ), -1]).sum = 0 := by
    norm_num [List.sum_cons, List.sum_nil]
  refine ⟨hs, ?_, ?_⟩
  · unfold psi_norm_area
    rw [hs]
    unfold fdiv
    norm_num
  · intro h
    exact FVal.noConfusion h

/-- Amended claim C6: when the sum of the sign-corrected eigenfunction
over `x` is nonzero, the area-normalised eigenfunction is everywhere
finite and sums to exactly `1`; when the sum is exactly zero, each entry
becomes not-a-number where the entry is zero and `±inf` where it is
nonzero — never an exception. -/
theorem C6_area_normalisation (p : List ℝ) :
    (p.sum ≠ 0 →
        psi_norm_area p = p.map (fun a => FVal.fin (a / p.sum)) ∧
          (p.map fun a => a / p.sum).sum = 1)
    ∧ (p.sum = 0 → ∀ a ∈ p, fdiv a p.sum =
        (if a = 0 then FVal.nan else if 0 < a then FVal.pinf else FVal.ninf)) := by
  constructor
  · intro hs
    constructor
    · unfold psi_norm_area
      refine List.map_congr_left ?_
      intro a _
      unfold fdiv
      rw [if_neg hs]
    · rw [list_sum_map_div, div_self hs]
  · intro hs a _
    unfold fdiv
    rw [if_pos hs]

/-- Witness for the amended C6 on the concrete row `[1, 1]`. -/
theorem C6_area_normalisation_witness :
    psi_norm_area [(1 : ℝ), 1] =
        ([(1 : ℝ), 1]).map (fun a => FVal.fin (a / ([(1 : ℝ), 1]).sum)) ∧
      (([(1 : ℝ), 1]).map fun a => a / ([(1 : ℝ), 1]).sum).sum = 1 :=
  (C6_area_normalisation [(1 : ℝ), 1]).1
    (by norm_num [List.sum_cons, List.sum_nil])

/-- Counterexample to claim C8: the sweep driver truncates to the real
part unconditionally.  For an eigenfunction entry `1 + 1000·i`, whose
residual imaginary magnitude exceeds its real part a thousandfold, the
driver still silently returns the real part and surfaces no
`PrecisionWarning`. -/
theorem C8_counterexample :
    psi_real [Complex.mk 1 1000] = ([1], []) ∧
      ([] : List RunWarning) ≠ [RunWarning.PrecisionWarning] := by
  constructor
  · rfl
  · intro h
    exact List.noConfusion h

/-- Amended claim C8: after collecting the eigenvectors the driver drops
the residual imaginary component unconditionally — its output depends
only on the real parts and its warning list is always empty; no
tolerance check and no `PrecisionWarning` mechanism exist. -/
theorem C8_unconditional_discard (psi other : List ℂ)
    (h : psi.map Complex.re = other.map Complex.re) :
    (psi_real psi).2 = [] ∧ psi_real psi = psi_real other := by
  refine ⟨rfl, ?_⟩
  unfold psi_real
  rw [h]

/-- Witness for the amended C8: an entry with huge imaginary residual is
treated identically to one with no residual at all. -/
theorem C8_unconditional_discard_witness :
    (psi_real [Complex.mk 1 1000]).2 = [] ∧
      psi_real [Complex.mk 1 1000] = psi_real [Complex.mk 1 0] :=
  C8_unconditional_discard [Complex.mk 1 1000] [Complex.mk 1 0] rfl

/-- Claim C10: the sign-corrected eigenfunction is nonnegative at the
reference index; when the reference value is nonzero the correction only
flips signs (absolute values are preserved at every `x`); when the
reference value is exactly zero the whole row degenerates to zero. -/
theorem C10_sign_correction (p : ℕ → ℝ) (ref : ℕ) :
    0 ≤ psi_sign_corrected p ref ref
    ∧ (p ref ≠ 0 → ∀ x, |psi_sign_corrected p ref x| = |p x|)
    ∧ (p ref = 0 → ∀ x, psi_sign_corrected p ref x = 0) := by
  refine ⟨?_, ?_, ?_⟩
  · unfold psi_sign_corrected npSign
    rcases lt_trichotomy 0 (p ref) with h | h | h
    · rw [if_pos h, one_mul]
      exact h.le
    · rw [if_neg (by rw [← h]; exact lt_irrefl 0), if_neg (by rw [← h]; exact lt_irrefl 0)]
      rw [zero_mul]
    · rw [if_neg (asymm h), if_pos h, neg_one_mul]
      exact neg_nonneg.mpr h.le
  · intro h x
    unfold psi_sign_corrected npSign
    rcases lt_trichotomy 0 (p ref) with hc | hc | hc
    · rw [if_pos hc, one_mul]
    · exact absurd hc.symm h
    · rw [if_neg (asymm hc), if_pos hc, neg_one_mul, abs_neg]
  · intro h x
    unfold psi_sign_corrected npSign
    rw [h]
    norm_num

/-- Witness for C10 at the concrete constant row `-2` with reference
index `0`. -/
theorem C10_sign_correction_witness :
    0 ≤ psi_sign_corrected (fun _ => (-2 : ℝ)) 0 0 ∧
      |psi_sign_corrected (fun _ => (-2 : ℝ)) 0 5| = |(-2 : ℝ)| :=
  ⟨(C10_sign_correction (fun _ => (-2 : ℝ)) 0).1,
    (C10_sign_correction (fun _ => (-2 : ℝ)) 0).2.1 (by norm_num) 5⟩

end

end LSA
